import Mathlib

/-!
Shallow embedding of the conversation flow controller in
`src/services/flow-service.js` (class `FlowService`), together with proofs
of the specification claims about it.

Conventions of the embedding:
* JavaScript `Map` objects are modelled as association lists together with
  `mapGet` / `mapSet` / insertion-order-preserving update, matching
  `Map.get` / `Map.set` / `Map.delete` semantics.
* `Date.now()` is passed in explicitly as a `now : Nat` argument (milliseconds).
* `Math.floor(Math.random() * n)` is modelled by an externally supplied draw
  `r : Nat`, used as the index `r % n` (always a valid index, as in the source).
* JS string operations (`toLowerCase`, `includes`, `startsWith`, `endsWith`)
  are modelled on the character lists of Lean strings.
-/

/-- Association-list lookup, modelling `Map.get` (first entry whose key matches). -/
def mapGet {κ α : Type} [BEq κ] : List (κ × α) → κ → Option α
  | [], _ => none
  | e :: rest, k => if e.1 == k then some e.2 else mapGet rest k

/-- Lookup with a default, modelling the `map.get(k) || d` idiom of the source. -/
def mapGetD {κ α : Type} [BEq κ] (m : List (κ × α)) (k : κ) (d : α) : α :=
  (mapGet m k).getD d

/-- Association-list update, modelling `Map.set`: replaces the value in place
when the key is present, otherwise appends a fresh entry. -/
def mapSet {κ α : Type} [BEq κ] (m : List (κ × α)) (k : κ) (v : α) : List (κ × α) :=
  if m.any (fun e => e.1 == k) then
    m.map (fun e => if e.1 == k then (k, v) else e)
  else
    m ++ [(k, v)]

/-- Membership test for a key, modelling `Map.has`. -/
def mapHasKey {κ α : Type} [BEq κ] (m : List (κ × α)) (k : κ) : Bool :=
  m.any (fun e => e.1 == k)

/-- Character-list test that `l` starts with `pat`. -/
def beginsWith {α : Type} [BEq α] : List α → List α → Bool
  | _, [] => true
  | [], _ :: _ => false
  | c :: cs, d :: ds => c == d && beginsWith cs ds

/-- Worker for substring search: does `sub` occur inside the list? -/
def includesAux {α : Type} [BEq α] (sub : List α) : List α → Bool
  | [] => sub.isEmpty
  | c :: rest => beginsWith (c :: rest) sub || includesAux sub rest

/-- Model of `String.prototype.includes`: `strIncludes s sub` is true when
`sub` occurs in `s` as a contiguous substring. -/
def strIncludes (s sub : String) : Bool :=
  includesAux sub.data s.data

/-- Model of `String.prototype.startsWith`. -/
def strStartsWith (s p : String) : Bool :=
  beginsWith s.data p.data

/-- Model of `String.prototype.endsWith`. -/
def strEndsWith (s p : String) : Bool :=
  beginsWith s.data.reverse p.data.reverse

/-- Model of `String.prototype.toLowerCase` (ASCII, which covers the `\w`
characters produced by the mention regex). -/
def jsToLower (s : String) : String :=
  ⟨s.data.map Char.toLower⟩

/-- Participant record; the controller reads only `id` and `personality_name`
(other fields are opaque pass-through and omitted here). -/
structure Participant where
  id : Nat
  personality_name : String
deriving DecidableEq

/-- Value stored in the `lastMentions` map of the conversation state. -/
structure MentionInfo where
  mentionedBy : String
  timestamp : Nat
deriving DecidableEq

/-- The `lastMessage` argument of `getNextSpeaker`. -/
structure Message where
  content : String
  sender_name : String
deriving DecidableEq

/-- Per-conversation state created by `initializeConversation`
(`flow-service.js` lines 35-63). -/
structure FlowState where
  participants : List Participant
  lastSpeaker : Option Participant
  speakingOrder : List Participant
  currentIndex : Nat
  mentionQueue : List Participant
  consecutiveTurns : List (Nat × Nat)
  lastMentions : List (Nat × MentionInfo)
  mentionChainCount : List (String × Nat)
  lastMentionTime : List (String × Nat)
  maxMentionChain : Nat
  mentionCooldown : Nat
deriving DecidableEq

/-- Chain key construction, the template literal `«mentioner»-«mentioned»`. -/
def chainKey (mentioner mentioned : String) : String :=
  mentioner ++ "-" ++ mentioned

/-- Character class of the `\w` regex atom: ASCII letters, digits, underscore. -/
def isWordChar (c : Char) : Bool :=
  c.isAlphanum || c == '_'

/-- Worker for `extractMentions`, scanning for `@(\w+)` matches.  The fuel
argument (initially the length of the list) makes the recursion structural;
every step consumes at least one character, so the fuel never runs out. -/
def extractMentionsAux : Nat → List Char → List String
  | 0, _ => []
  | _, [] => []
  | fuel + 1, c :: rest =>
    if c = '@' then
      let word := rest.takeWhile isWordChar
      if word.isEmpty then
        extractMentionsAux fuel rest
      else
        jsToLower ⟨word⟩ :: extractMentionsAux fuel (rest.dropWhile isWordChar)
    else
      extractMentionsAux fuel rest

/-- `extractMentions` (lines 85-98): all `@(\w+)` matches, lowercased, in
textual order, duplicates preserved. -/
def extractMentions (content : String) : List String :=
  extractMentionsAux content.data.length content.data

/-- `findParticipantByName` (lines 106-118): first participant matching the
candidate case-insensitively by equality or substring containment either way. -/
def findParticipantByName (participants : List Participant) (mentionName : String) :
    Option Participant :=
  let lowerMention := jsToLower mentionName
  participants.find? (fun p =>
    let lowerName := jsToLower p.personality_name
    lowerName == lowerMention ||
      strIncludes lowerName lowerMention ||
      strIncludes lowerMention lowerName)

/-- `shouldBreakMentionChain` (lines 127-163): reject a candidate mention when
the forward chain hit the cap, the forward+reverse total hit twice the cap, or
the same-direction cooldown has not elapsed. -/
def shouldBreakMentionChain (s : FlowState) (mentioner mentioned : String) (now : Nat) : Bool :=
  let ck := chainKey mentioner mentioned
  let rk := chainKey mentioned mentioner
  let currentChain := mapGetD s.mentionChainCount ck 0
  let reverseChain := mapGetD s.mentionChainCount rk 0
  let lastTime := mapGetD s.lastMentionTime ck 0
  decide (s.maxMentionChain ≤ currentChain) ||
    decide (s.maxMentionChain * 2 ≤ currentChain + reverseChain) ||
    decide ((now : Int) - (lastTime : Int) < (s.mentionCooldown : Int))

/-- Reasons logged by `shouldBreakMentionChain` when it breaks a chain. -/
inductive BreakReason where
  | max_chain
  | too_much_back_forth
  | cooldown
deriving DecidableEq

/-- The reason reported for a broken chain, mirroring the nested ternary in the
logging call of `shouldBreakMentionChain` (lines 153-158); `none` when the
chain is not broken. -/
def breakReason (s : FlowState) (mentioner mentioned : String) (now : Nat) :
    Option BreakReason :=
  let ck := chainKey mentioner mentioned
  let rk := chainKey mentioned mentioner
  let currentChain := mapGetD s.mentionChainCount ck 0
  let reverseChain := mapGetD s.mentionChainCount rk 0
  if shouldBreakMentionChain s mentioner mentioned now then
    some
      (if s.maxMentionChain ≤ currentChain then BreakReason.max_chain
       else if s.maxMentionChain * 2 ≤ currentChain + reverseChain then
         BreakReason.too_much_back_forth
       else BreakReason.cooldown)
  else
    none

/-- `updateMentionChain` (lines 171-194): increment the forward chain count,
stamp the forward key with `now`, then sweep every entry whose timestamp is
older than five minutes out of both chain maps. -/
def updateMentionChain (s : FlowState) (mentioner mentioned : String) (now : Nat) : FlowState :=
  let ck := chainKey mentioner mentioned
  let currentCount := mapGetD s.mentionChainCount ck 0
  let counts1 := mapSet s.mentionChainCount ck (currentCount + 1)
  let times1 := mapSet s.lastMentionTime ck now
  let expiredKeys :=
    (times1.filter (fun e => decide ((e.2 : Int) < (now : Int) - 300000))).map (fun e => e.1)
  { s with
    mentionChainCount := counts1.filter (fun e => !(expiredKeys.contains e.1)),
    lastMentionTime := times1.filter (fun e => !(expiredKeys.contains e.1)) }

/-- `resetMentionChainsForSpeaker` (lines 329-353): delete from both chain maps
every chain-count key that starts with `speakerName-` or ends with
`-speakerName`. -/
def resetMentionChainsForSpeaker (s : FlowState) (speakerName : String) : FlowState :=
  let keysToReset :=
    (s.mentionChainCount.filter (fun e =>
      strStartsWith e.1 (speakerName ++ "-") || strEndsWith e.1 ("-" ++ speakerName))).map
      (fun e => e.1)
  { s with
    mentionChainCount := s.mentionChainCount.filter (fun e => !(keysToReset.contains e.1)),
    lastMentionTime := s.lastMentionTime.filter (fun e => !(keysToReset.contains e.1)) }

/-- Uniform pick `l[Math.floor(Math.random() * l.length)]`, with the draw
supplied externally; `none` exactly when the list is empty. -/
def pick {α : Type} (l : List α) (r : Nat) : Option α :=
  l[r % l.length]?

/-- `selectRandomSpeaker` (lines 361-393): exclude the last speaker, prefer
participants with fewer than 2 consecutive turns, and fall back to the whole
participant list when both pools are empty. -/
def selectRandomSpeaker (s : FlowState) (r : Nat) : Option Participant :=
  let availableSpeakers :=
    match s.lastSpeaker with
    | some ls => s.participants.filter (fun p => !(p.id == ls.id))
    | none => s.participants
  let preferredSpeakers :=
    availableSpeakers.filter (fun p => decide (mapGetD s.consecutiveTurns p.id 0 < 2))
  let candidateSpeakers :=
    if 0 < preferredSpeakers.length then preferredSpeakers else availableSpeakers
  if candidateSpeakers.length = 0 then
    pick s.participants r
  else
    pick candidateSpeakers r

/-- The mention loop of `getNextSpeaker` (lines 218-279): try each extracted
candidate in order; skip unresolved candidates and self-mentions; on the first
candidate that passes the chain guard, update the chain maps and the
`lastMentions` record and return that participant with the updated state. -/
def tryMentions (s : FlowState) (sender : String) (now : Nat) :
    List String → Option (Participant × FlowState)
  | [] => none
  | m :: rest =>
    match findParticipantByName s.participants m with
    | none => tryMentions s sender now rest
    | some mp =>
      if mp.personality_name ≠ sender then
        if shouldBreakMentionChain s sender mp.personality_name now then
          tryMentions s sender now rest
        else
          let s1 := updateMentionChain s sender mp.personality_name now
          some (mp, { s1 with lastMentions := mapSet s1.lastMentions mp.id ⟨sender, now⟩ })
      else
        tryMentions s sender now rest

/-- The bookkeeping block of `getNextSpeaker` (lines 293-308): record the new
last speaker, increment their consecutive-turn count, zero everyone else's. -/
def updateSpeakerBookkeeping (s : FlowState) (next : Participant) : FlowState :=
  let consecutiveCount := mapGetD s.consecutiveTurns next.id 0 + 1
  let m1 := mapSet s.consecutiveTurns next.id consecutiveCount
  let m2 := s.participants.foldl
    (fun m p => if p.id ≠ next.id then mapSet m p.id 0 else m) m1
  { s with lastSpeaker := some next, consecutiveTurns := m2 }

/-- `getNextSpeaker` on a single conversation state (lines 211-321): mention
path first (only when the message has non-empty content and sender), then the
random path with the fall-through chain reset, then speaker bookkeeping. -/
def getNextSpeakerSt (s : FlowState) (lastMessage : Option Message) (now r : Nat) :
    Option Participant × FlowState :=
  let mentionResult :=
    match lastMessage with
    | none => none
    | some msg =>
      if msg.content ≠ "" ∧ msg.sender_name ≠ "" then
        tryMentions s msg.sender_name now (extractMentions msg.content)
      else
        none
  match mentionResult with
  | some (p, s1) => (some p, updateSpeakerBookkeeping s1 p)
  | none =>
    let next := selectRandomSpeaker s r
    let s1 :=
      match lastMessage with
      | some msg =>
        if msg.sender_name ≠ "" then resetMentionChainsForSpeaker s msg.sender_name else s
      | none => s
    match next with
    | some p => (some p, updateSpeakerBookkeeping s1 p)
    | none => (none, s1)

/-- One swap step of the Fisher-Yates shuffle. -/
def listSwap {α : Type} (l : List α) (i j : Nat) : List α :=
  match l[i]?, l[j]? with
  | some a, some b => (l.set i b).set j a
  | _, _ => l

/-- Worker for `shuffleArray`, counting the loop index down from
`length - 1` to `1`; `rand i` supplies the draw `Math.random() * (i + 1)`. -/
def shuffleAux {α : Type} (rand : Nat → Nat) : List α → Nat → List α
  | l, 0 => l
  | l, i + 1 => shuffleAux rand (listSwap l (i + 1) (rand (i + 1) % (i + 2))) i

/-- `shuffleArray` (lines 70-78), with the random draws supplied externally. -/
def shuffleArray {α : Type} (array : List α) (rand : Nat → Nat) : List α :=
  shuffleAux rand array (array.length - 1)

/-- `initializeConversation` (lines 35-63): build the fresh state and store it
under the conversation id (silently overwriting any previous state). -/
def initializeConversation (states : List (String × FlowState)) (conversationId : String)
    (participants : List Participant) (rand : Nat → Nat) :
    FlowState × List (String × FlowState) :=
  let state : FlowState :=
    { participants := participants
      lastSpeaker := none
      speakingOrder := shuffleArray participants rand
      currentIndex := 0
      mentionQueue := []
      consecutiveTurns := []
      lastMentions := []
      mentionChainCount := []
      lastMentionTime := []
      maxMentionChain := 2
      mentionCooldown := 30000 }
  (state, mapSet states conversationId state)

/-- `cleanupConversation` (lines 408-413). -/
def cleanupConversation (states : List (String × FlowState)) (conversationId : String) :
    List (String × FlowState) :=
  states.filter (fun e => !(e.1 == conversationId))

/-- `getNextSpeaker` at the service level (lines 202-209 for the missing-state
branch): `none` when the conversation id has no state. -/
def getNextSpeaker (states : List (String × FlowState)) (conversationId : String)
    (lastMessage : Option Message) (now r : Nat) :
    Option Participant × List (String × FlowState) :=
  match mapGet states conversationId with
  | none => (none, states)
  | some s =>
    let res := getNextSpeakerSt s lastMessage now r
    (res.1, mapSet states conversationId res.2)

/-! ### Association-list lemmas -/

theorem mapGet_append {κ α : Type} [BEq κ] (m1 m2 : List (κ × α)) (k : κ) :
    mapGet (m1 ++ m2) k =
      match mapGet m1 k with
      | some v => some v
      | none => mapGet m2 k := by
  induction m1 with
  | nil => rfl
  | cons e rest ih =>
    rw [List.cons_append]
    cases h : e.1 == k <;> simp [mapGet, h, ih]

theorem mapGet_none_of_not_any {κ α : Type} [BEq κ] (m : List (κ × α)) (k : κ)
    (h : m.any (fun e => e.1 == k) = false) : mapGet m k = none := by
  induction m with
  | nil => rfl
  | cons e rest ih =>
    simp only [List.any_cons, Bool.or_eq_false_iff] at h
    simp [mapGet, h.1, ih h.2]

theorem mapGet_map_replace_self {κ α : Type} [BEq κ] [LawfulBEq κ]
    (m : List (κ × α)) (k : κ) (v : α) :
    mapGet (m.map (fun e => if e.1 == k then (k, v) else e)) k =
      if m.any (fun e => e.1 == k) then some v else none := by
  induction m with
  | nil => rfl
  | cons e rest ih =>
    by_cases he : e.1 = k
    · simp [mapGet, he]
    · have hb : (e.1 == k) = false := beq_eq_false_iff_ne.mpr he
      simp only [List.map_cons, List.any_cons, hb, Bool.false_or, mapGet]
      rw [if_neg Bool.false_ne_true, hb, if_neg Bool.false_ne_true]
      exact ih

theorem mapGet_map_replace_ne {κ α : Type} [BEq κ] [LawfulBEq κ]
    (m : List (κ × α)) (k k' : κ) (v : α) (hne : k' ≠ k) :
    mapGet (m.map (fun e => if e.1 == k then (k, v) else e)) k' = mapGet m k' := by
  induction m with
  | nil => rfl
  | cons e rest ih =>
    by_cases he : e.1 = k
    · simp [mapGet, he, Ne.symm hne, ih]
    · have hb : (e.1 == k) = false := beq_eq_false_iff_ne.mpr he
      simp only [List.map_cons, mapGet]
      rw [hb, if_neg Bool.false_ne_true, ih]

theorem mapGet_set_self {κ α : Type} [BEq κ] [LawfulBEq κ] (m : List (κ × α)) (k : κ) (v : α) :
    mapGet (mapSet m k v) k = some v := by
  unfold mapSet
  cases hany : m.any (fun e => e.1 == k)
  · rw [if_neg (by simp), mapGet_append, mapGet_none_of_not_any m k hany]
    simp [mapGet]
  · rw [if_pos rfl, mapGet_map_replace_self, if_pos hany]

theorem mapGet_set_ne {κ α : Type} [BEq κ] [LawfulBEq κ] (m : List (κ × α)) (k k' : κ) (v : α)
    (hne : k' ≠ k) : mapGet (mapSet m k v) k' = mapGet m k' := by
  unfold mapSet
  cases hany : m.any (fun e => e.1 == k)
  · rw [if_neg (by simp), mapGet_append]
    have hb : (k == k') = false := beq_eq_false_iff_ne.mpr (fun hh => hne hh.symm)
    cases hg : mapGet m k' <;> simp [hg, mapGet, hb]
  · rw [if_pos rfl, mapGet_map_replace_ne m k k' v hne]

theorem mapGet_filter_notContains_miss {κ α : Type} [BEq κ] [LawfulBEq κ]
    (ex : List κ) (m : List (κ × α)) (k : κ) (hc : ex.contains k = false) :
    mapGet (m.filter (fun e => !(ex.contains e.1))) k = mapGet m k := by
  induction m with
  | nil => rfl
  | cons e rest ih =>
    by_cases he : e.1 = k
    · rw [List.filter_cons, if_pos (by rw [he, hc]; rfl)]
      simp only [mapGet]
      rw [beq_iff_eq.mpr he, if_pos rfl, if_pos rfl]
    · have hb : (e.1 == k) = false := beq_eq_false_iff_ne.mpr he
      cases hc2 : ex.contains e.1
      · rw [List.filter_cons, if_pos (by rw [hc2]; rfl)]
        simp only [mapGet]
        rw [hb, if_neg Bool.false_ne_true, if_neg Bool.false_ne_true]
        exact ih
      · rw [List.filter_cons, if_neg (by rw [hc2]; simp)]
        rw [ih]
        simp only [mapGet]
        rw [hb, if_neg Bool.false_ne_true]

theorem mapGet_filter_notContains_hit {κ α : Type} [BEq κ] [LawfulBEq κ]
    (ex : List κ) (m : List (κ × α)) (k : κ) (hc : ex.contains k = true) :
    mapGet (m.filter (fun e => !(ex.contains e.1))) k = none := by
  induction m with
  | nil => rfl
  | cons e rest ih =>
    by_cases he : e.1 = k
    · rw [List.filter_cons, if_neg (by rw [he, hc]; simp)]
      exact ih
    · have hb : (e.1 == k) = false := beq_eq_false_iff_ne.mpr he
      cases hc2 : ex.contains e.1
      · rw [List.filter_cons, if_pos (by rw [hc2]; rfl)]
        simp only [mapGet]
        rw [hb, if_neg Bool.false_ne_true]
        exact ih
      · rw [List.filter_cons, if_neg (by rw [hc2]; simp)]
        exact ih

theorem mem_mapSet_eq {κ α : Type} [BEq κ] [LawfulBEq κ] (m : List (κ × α)) (k : κ) (v : α) :
    ∀ e ∈ mapSet m k v, e.1 = k → e = (k, v) := by
  intro e hmem hkey
  unfold mapSet at hmem
  cases hany : m.any (fun x => x.1 == k)
  · rw [if_neg (by simp [hany]), List.mem_append] at hmem
    rcases hmem with hmem | hmem
    · exfalso
      have hb : (e.1 == k) = true := beq_iff_eq.mpr hkey
      have : m.any (fun x => x.1 == k) = true := List.any_eq_true.mpr ⟨e, hmem, hb⟩
      rw [hany] at this
      exact Bool.false_ne_true this
    · simpa using hmem
  · rw [if_pos hany, List.mem_map] at hmem
    obtain ⟨x, hx, hxe⟩ := hmem
    by_cases hxk : (x.1 == k) = true
    · rw [if_pos hxk] at hxe
      exact hxe.symm
    · rw [if_neg hxk] at hxe
      exact absurd (beq_iff_eq.mpr (hxe ▸ hkey)) hxk

theorem contains_eq_false_of_not_mem {κ : Type} [BEq κ] [LawfulBEq κ]
    (l : List κ) (k : κ) (h : k ∉ l) : l.contains k = false := by
  cases hc : l.contains k
  · rfl
  · exact absurd (List.mem_of_elem_eq_true hc) h

/-! ### Lemmas about `updateMentionChain` -/

theorem expiredKeys_not_contains_self (times : List (String × Nat)) (ck : String) (now : Nat) :
    (((mapSet times ck now).filter
        (fun e => decide ((e.2 : Int) < (now : Int) - 300000))).map (fun e => e.1)).contains ck
      = false := by
  apply contains_eq_false_of_not_mem
  intro hmem
  rw [List.mem_map] at hmem
  obtain ⟨e, he, hek⟩ := hmem
  rw [List.mem_filter] at he
  have heq : e = (ck, now) := mem_mapSet_eq _ _ _ e he.1 hek
  have hlt := he.2
  rw [heq] at hlt
  simp only [decide_eq_true_eq] at hlt
  omega

theorem umc_count_self (s : FlowState) (a b : String) (t : Nat) :
    mapGet (updateMentionChain s a b t).mentionChainCount (chainKey a b) =
      some (mapGetD s.mentionChainCount (chainKey a b) 0 + 1) := by
  dsimp only [updateMentionChain]
  rw [mapGet_filter_notContains_miss _ _ _ (expiredKeys_not_contains_self _ _ _),
    mapGet_set_self]

theorem umc_time_self (s : FlowState) (a b : String) (t : Nat) :
    mapGet (updateMentionChain s a b t).lastMentionTime (chainKey a b) = some t := by
  dsimp only [updateMentionChain]
  rw [mapGet_filter_notContains_miss _ _ _ (expiredKeys_not_contains_self _ _ _),
    mapGet_set_self]

theorem umc_no_expiry (s : FlowState) (a b : String) (t : Nat)
    (h : ∀ e ∈ mapSet s.lastMentionTime (chainKey a b) t, ¬ ((e.2 : Int) < (t : Int) - 300000)) :
    (updateMentionChain s a b t).mentionChainCount =
        mapSet s.mentionChainCount (chainKey a b)
          (mapGetD s.mentionChainCount (chainKey a b) 0 + 1) ∧
      (updateMentionChain s a b t).lastMentionTime = mapSet s.lastMentionTime (chainKey a b) t := by
  have hfil : (mapSet s.lastMentionTime (chainKey a b) t).filter
      (fun e => decide ((e.2 : Int) < (t : Int) - 300000)) = [] := by
    rw [List.filter_eq_nil_iff]
    intro e he
    simpa using h e he
  constructor
  · dsimp only [updateMentionChain]
    rw [hfil, List.map_nil]
    exact List.filter_eq_self.mpr (fun e he => rfl)
  · dsimp only [updateMentionChain]
    rw [hfil, List.map_nil]
    exact List.filter_eq_self.mpr (fun e he => rfl)

/-! ### Concrete fixtures for witnesses and counterexamples -/

/-- Fixture participant. -/
def aliceP : Participant := ⟨1, "Alice"⟩

/-- Fixture participant. -/
def bobP : Participant := ⟨2, "Bob"⟩

/-- Fixture participant list (registration order: Alice, Bob). -/
def abParticipants : List Participant := [aliceP, bobP]

/-- Freshly initialized two-participant conversation state. -/
def initStateAB : FlowState :=
  (initializeConversation [] "conv" abParticipants (fun _ => 0)).1

/-- C2: with maxMentionChain = 2, after two accepted mentions A→B (each
recorded by `updateMentionChain`), a third candidate A→B is rejected by the
chain guard, and the reported reason is "max chain"; hence three consecutive
accepted mentions in one direction are impossible. -/
theorem c2_chain_cap (s : FlowState) (A B : String) (t1 t2 t3 : Nat)
    (_hAB : A ≠ B)
    (hmax : s.maxMentionChain = 2)
    (hacc1 : shouldBreakMentionChain s A B t1 = false)
    (hacc2 : shouldBreakMentionChain (updateMentionChain s A B t1) A B t2 = false) :
    shouldBreakMentionChain (updateMentionChain (updateMentionChain s A B t1) A B t2) A B t3
        = true ∧
      breakReason (updateMentionChain (updateMentionChain s A B t1) A B t2) A B t3
        = some BreakReason.max_chain := by
  have hc1 : mapGetD (updateMentionChain s A B t1).mentionChainCount (chainKey A B) 0 =
      mapGetD s.mentionChainCount (chainKey A B) 0 + 1 := by
    rw [mapGetD, umc_count_self]
    rfl
  have hc2 : mapGetD
      (updateMentionChain (updateMentionChain s A B t1) A B t2).mentionChainCount
      (chainKey A B) 0 =
      mapGetD s.mentionChainCount (chainKey A B) 0 + 2 := by
    rw [mapGetD, umc_count_self, Option.getD_some, hc1]
  simp only [shouldBreakMentionChain, Bool.or_eq_false_iff, decide_eq_false_iff_not] at hacc1 hacc2
  have hmax1 : (updateMentionChain s A B t1).maxMentionChain = 2 := hmax
  have hmax2 : (updateMentionChain (updateMentionChain s A B t1) A B t2).maxMentionChain = 2 :=
    hmax
  rw [hmax] at hacc1
  rw [hmax1, hc1] at hacc2
  have hc0 : mapGetD s.mentionChainCount (chainKey A B) 0 = 0 := by
    have := hacc2.1
    omega
  have hcur : mapGetD
      (updateMentionChain (updateMentionChain s A B t1) A B t2).mentionChainCount
      (chainKey A B) 0 = 2 := by
    rw [hc2, hc0]
  constructor
  · simp only [shouldBreakMentionChain, hmax2, hcur, Bool.or_eq_true, decide_eq_true_eq]
    exact Or.inl (Or.inl (le_refl 2))
  · rw [breakReason]
    simp only [shouldBreakMentionChain, hmax2, hcur, Bool.or_eq_true, decide_eq_true_eq]
    rw [if_pos (Or.inl (Or.inl (le_refl 2))), if_pos (le_refl 2)]

/-- C2 witness: the chain-cap theorem applied to a concrete fresh state with
two accepted Alice→Bob mentions at 50000 and 100000 and a third attempt at
130000. -/
theorem c2_chain_cap_witness :
    shouldBreakMentionChain
        (updateMentionChain (updateMentionChain initStateAB "Alice" "Bob" 50000)
          "Alice" "Bob" 100000) "Alice" "Bob" 130000 = true ∧
      breakReason
        (updateMentionChain (updateMentionChain initStateAB "Alice" "Bob" 50000)
          "Alice" "Bob" 100000) "Alice" "Bob" 130000 = some BreakReason.max_chain :=
  c2_chain_cap initStateAB "Alice" "Bob" 50000 100000 130000
    (by decide) (by decide) (by decide) (by decide)

/-- C1 counterexample: with maxMentionChain = 2 and the alternating sequence
Alice→Bob (t=100000), Bob→Alice (140000), Alice→Bob (180000) — all accepted,
each 40000 ms apart, outside the 30000 ms cooldown — the fourth alternating
candidate Bob→Alice at 220000 is NOT rejected by the chain guard (its forward
count is 1 and reverse count 2, so forward + reverse = 3 < 2 * maxMentionChain),
contradicting the claim that the fourth is rejected. -/
theorem c1_counterexample :
    shouldBreakMentionChain initStateAB "Alice" "Bob" 100000 = false ∧
      shouldBreakMentionChain
        (updateMentionChain initStateAB "Alice" "Bob" 100000) "Bob" "Alice" 140000 = false ∧
      shouldBreakMentionChain
        (updateMentionChain (updateMentionChain initStateAB "Alice" "Bob" 100000)
          "Bob" "Alice" 140000) "Alice" "Bob" 180000 = false ∧
      shouldBreakMentionChain
        (updateMentionChain
          (updateMentionChain (updateMentionChain initStateAB "Alice" "Bob" 100000)
            "Bob" "Alice" 140000) "Alice" "Bob" 180000) "Bob" "Alice" 220000 = false := by
  decide

/-- C1 amended: with maxMentionChain = 2, for distinct participants whose two
chain keys differ, starting from empty chain maps, the alternating sequence
A→B, B→A, A→B, B→A (each outside the 30-second cooldown for its direction and
within the 5-minute expiry window) has ALL FOUR candidates accepted — at the
fourth, forward + reverse = 1 + 2 = 3 < 2 * maxMentionChain — and it is a
fifth alternating mention (A→B, at any time) that the guard rejects, with
reason "max chain" (its own direction reached the cap), not
"too much back-and-forth". -/
theorem c1_amended (s : FlowState) (A B : String) (t1 t2 t3 t4 t5 : Nat)
    (hk : chainKey A B ≠ chainKey B A)
    (hcounts : s.mentionChainCount = []) (htimes : s.lastMentionTime = [])
    (hmax : s.maxMentionChain = 2) (hcool : s.mentionCooldown = 30000)
    (h1 : 30000 ≤ t1) (h12 : t1 ≤ t2) (h13 : t1 + 30000 ≤ t3)
    (_h23 : t2 ≤ t3) (h24 : t2 + 30000 ≤ t4) (h34 : t3 ≤ t4)
    (hexp : t4 ≤ t1 + 300000) :
    shouldBreakMentionChain s A B t1 = false ∧
      shouldBreakMentionChain (updateMentionChain s A B t1) B A t2 = false ∧
      shouldBreakMentionChain
        (updateMentionChain (updateMentionChain s A B t1) B A t2) A B t3 = false ∧
      shouldBreakMentionChain
        (updateMentionChain (updateMentionChain (updateMentionChain s A B t1) B A t2)
          A B t3) B A t4 = false ∧
      shouldBreakMentionChain
        (updateMentionChain
          (updateMentionChain (updateMentionChain (updateMentionChain s A B t1) B A t2)
            A B t3) B A t4) A B t5 = true ∧
      breakReason
        (updateMentionChain
          (updateMentionChain (updateMentionChain (updateMentionChain s A B t1) B A t2)
            A B t3) B A t4) A B t5 = some BreakReason.max_chain := by
  have hFB : (chainKey A B == chainKey B A) = false := beq_eq_false_iff_ne.mpr hk
  have hBF : (chainKey B A == chainKey A B) = false := beq_eq_false_iff_ne.mpr (Ne.symm hk)
  -- state after the first accepted mention
  have e1 := umc_no_expiry s A B t1 (by
    rw [htimes]
    intro e he
    have he' : e = (chainKey A B, t1) := by simpa [mapSet] using he
    rw [he']
    simp only
    omega)
  have hs1c : (updateMentionChain s A B t1).mentionChainCount = [(chainKey A B, 1)] := by
    rw [e1.1, hcounts]
    rfl
  have hs1t : (updateMentionChain s A B t1).lastMentionTime = [(chainKey A B, t1)] := by
    rw [e1.2, htimes]
    rfl
  -- state after the second accepted mention
  have hset2 : mapSet [(chainKey A B, t1)] (chainKey B A) t2 =
      [(chainKey A B, t1), (chainKey B A, t2)] := by
    simp [mapSet, hk, Ne.symm hk]
  have e2 := umc_no_expiry (updateMentionChain s A B t1) B A t2 (by
    rw [hs1t, hset2]
    intro e he
    rcases (by simpa using he : e = (chainKey A B, t1) ∨ e = (chainKey B A, t2)) with h | h <;>
      rw [h] <;> simp only <;> omega)
  have hs2c : (updateMentionChain (updateMentionChain s A B t1) B A t2).mentionChainCount =
      [(chainKey A B, 1), (chainKey B A, 1)] := by
    rw [e2.1, hs1c]
    simp [mapSet, mapGetD, mapGet, hk, Ne.symm hk]
  have hs2t : (updateMentionChain (updateMentionChain s A B t1) B A t2).lastMentionTime =
      [(chainKey A B, t1), (chainKey B A, t2)] := by
    rw [e2.2, hs1t, hset2]
  -- state after the third accepted mention
  have hset3 : mapSet [(chainKey A B, t1), (chainKey B A, t2)] (chainKey A B) t3 =
      [(chainKey A B, t3), (chainKey B A, t2)] := by
    simp [mapSet, hk, Ne.symm hk]
  have e3 := umc_no_expiry (updateMentionChain (updateMentionChain s A B t1) B A t2) A B t3 (by
    rw [hs2t, hset3]
    intro e he
    rcases (by simpa using he : e = (chainKey A B, t3) ∨ e = (chainKey B A, t2)) with h | h <;>
      rw [h] <;> simp only <;> omega)
  have hs3c : (updateMentionChain (updateMentionChain (updateMentionChain s A B t1) B A t2)
      A B t3).mentionChainCount = [(chainKey A B, 2), (chainKey B A, 1)] := by
    rw [e3.1, hs2c]
    simp [mapSet, mapGetD, mapGet, hk, Ne.symm hk]
  have hs3t : (updateMentionChain (updateMentionChain (updateMentionChain s A B t1) B A t2)
      A B t3).lastMentionTime = [(chainKey A B, t3), (chainKey B A, t2)] := by
    rw [e3.2, hs2t, hset3]
  -- state after the fourth accepted mention
  have hset4 : mapSet [(chainKey A B, t3), (chainKey B A, t2)] (chainKey B A) t4 =
      [(chainKey A B, t3), (chainKey B A, t4)] := by
    simp [mapSet, hk, Ne.symm hk]
  have e4 := umc_no_expiry
    (updateMentionChain (updateMentionChain (updateMentionChain s A B t1) B A t2) A B t3)
    B A t4 (by
      rw [hs3t, hset4]
      intro e he
      rcases (by simpa using he : e = (chainKey A B, t3) ∨ e = (chainKey B A, t4)) with h | h <;>
        rw [h] <;> simp only <;> omega)
  have hs4c : (updateMentionChain
      (updateMentionChain (updateMentionChain (updateMentionChain s A B t1) B A t2) A B t3)
      B A t4).mentionChainCount = [(chainKey A B, 2), (chainKey B A, 2)] := by
    rw [e4.1, hs3c]
    simp [mapSet, mapGetD, mapGet, hk, Ne.symm hk]
  -- the six guard evaluations
  refine ⟨?_, ?_, ?_, ?_, ?_, ?_⟩
  · simp [shouldBreakMentionChain, hcounts, htimes, hmax, hcool, mapGetD, mapGet]
    omega
  · simp [shouldBreakMentionChain, hs1c, hs1t,
      show (updateMentionChain s A B t1).maxMentionChain = 2 from hmax,
      show (updateMentionChain s A B t1).mentionCooldown = 30000 from hcool,
      mapGetD, mapGet, hk, Ne.symm hk]
    omega
  · simp [shouldBreakMentionChain, hs2c, hs2t,
      show (updateMentionChain (updateMentionChain s A B t1) B A t2).maxMentionChain = 2
        from hmax,
      show (updateMentionChain (updateMentionChain s A B t1) B A t2).mentionCooldown = 30000
        from hcool,
      mapGetD, mapGet, hk, Ne.symm hk]
    omega
  · simp [shouldBreakMentionChain, hs3c, hs3t,
      show (updateMentionChain (updateMentionChain (updateMentionChain s A B t1) B A t2)
        A B t3).maxMentionChain = 2 from hmax,
      show (updateMentionChain (updateMentionChain (updateMentionChain s A B t1) B A t2)
        A B t3).mentionCooldown = 30000 from hcool,
      mapGetD, mapGet, hk, Ne.symm hk]
    omega
  · simp [shouldBreakMentionChain, hs4c,
      show (updateMentionChain (updateMentionChain (updateMentionChain
        (updateMentionChain s A B t1) B A t2) A B t3) B A t4).maxMentionChain = 2 from hmax,
      mapGetD, mapGet]
  · rw [breakReason]
    simp [shouldBreakMentionChain, hs4c,
      show (updateMentionChain (updateMentionChain (updateMentionChain
        (updateMentionChain s A B t1) B A t2) A B t3) B A t4).maxMentionChain = 2 from hmax,
      mapGetD, mapGet]

/-- C1 amended witness: the amended theorem applied at Alice/Bob with mention
times 30000, 60000, 90000, 120000 and a fifth attempt at 150000. -/
theorem c1_amended_witness :
    shouldBreakMentionChain initStateAB "Alice" "Bob" 30000 = false ∧
      shouldBreakMentionChain (updateMentionChain initStateAB "Alice" "Bob" 30000)
        "Bob" "Alice" 60000 = false ∧
      shouldBreakMentionChain
        (updateMentionChain (updateMentionChain initStateAB "Alice" "Bob" 30000)
          "Bob" "Alice" 60000) "Alice" "Bob" 90000 = false ∧
      shouldBreakMentionChain
        (updateMentionChain (updateMentionChain (updateMentionChain initStateAB
          "Alice" "Bob" 30000) "Bob" "Alice" 60000) "Alice" "Bob" 90000)
        "Bob" "Alice" 120000 = false ∧
      shouldBreakMentionChain
        (updateMentionChain (updateMentionChain (updateMentionChain (updateMentionChain
          initStateAB "Alice" "Bob" 30000) "Bob" "Alice" 60000) "Alice" "Bob" 90000)
          "Bob" "Alice" 120000) "Alice" "Bob" 150000 = true ∧
      breakReason
        (updateMentionChain (updateMentionChain (updateMentionChain (updateMentionChain
          initStateAB "Alice" "Bob" 30000) "Bob" "Alice" 60000) "Alice" "Bob" 90000)
          "Bob" "Alice" 120000) "Alice" "Bob" 150000 = some BreakReason.max_chain :=
  c1_amended initStateAB "Alice" "Bob" 30000 60000 90000 120000 150000
    (by decide) rfl rfl rfl rfl (by decide) (by decide) (by decide) (by decide)
    (by decide) (by decide) (by decide)

/-- C6 counterexample: a successful Alice→Bob mention is recorded at
t = 1000000; Bob then sends a mention-free message, whose fall-through
resets every chain key involving Bob and deletes the (Alice,Bob) timestamp;
a candidate Alice→Bob mention at t' = 1010000 — only 10000 ms later, well
inside the 30000 ms cooldown — is then NOT rejected by the chain guard, and
the full `getNextSpeaker` pipeline accepts it and returns Bob again,
contradicting the claim that every same-direction candidate inside the
cooldown window is rejected. -/
theorem c6_counterexample :
    (getNextSpeakerSt initStateAB (some ⟨"hi @Bob", "Alice"⟩) 1000000 0).1 = some bobP ∧
      mapGet (getNextSpeakerSt initStateAB (some ⟨"hi @Bob", "Alice"⟩) 1000000 0).2.lastMentionTime
        (chainKey "Alice" "Bob") = some 1000000 ∧
      shouldBreakMentionChain
        (getNextSpeakerSt
          (getNextSpeakerSt initStateAB (some ⟨"hi @Bob", "Alice"⟩) 1000000 0).2
          (some ⟨"moving on", "Bob"⟩) 1005000 0).2
        "Alice" "Bob" 1010000 = false ∧
      (getNextSpeakerSt
        (getNextSpeakerSt
          (getNextSpeakerSt initStateAB (some ⟨"hi @Bob", "Alice"⟩) 1000000 0).2
          (some ⟨"moving on", "Bob"⟩) 1005000 0).2
        (some ⟨"again @Bob", "Alice"⟩) 1010000 0).1 = some bobP := by
  decide

/-- C6 amended: as long as the (X,Y) timestamp entry written by the successful
mention is still present — in particular immediately after
`updateMentionChain`, with no intervening fall-through reset or expiry having
deleted it — every candidate mention in the same direction at time t' with
t' - t < mentionCooldownMs (30000 ms) is rejected by the chain guard,
regardless of the current chain counts.  (An intervening fall-through reset
involving X or Y deletes the entry and defeats the cooldown, as the
counterexample shows.) -/
theorem c6_cooldown_amended (s : FlowState) (X Y : String) (t tp : Nat)
    (hcool : s.mentionCooldown = 30000)
    (hwin : (tp : Int) - (t : Int) < 30000) :
    shouldBreakMentionChain (updateMentionChain s X Y t) X Y tp = true := by
  have ht := umc_time_self s X Y t
  simp only [shouldBreakMentionChain, mapGetD, ht, Option.getD_some,
    show (updateMentionChain s X Y t).mentionCooldown = 30000 from hcool,
    Bool.or_eq_true, decide_eq_true_eq]
  right
  exact hwin

/-- C6 amended witness: the cooldown rejection at Alice→Bob, mention recorded
at 1000000 and re-attempted at 1010000, with no intervening reset. -/
theorem c6_cooldown_amended_witness :
    shouldBreakMentionChain (updateMentionChain initStateAB "Alice" "Bob" 1000000)
      "Alice" "Bob" 1010000 = true :=
  c6_cooldown_amended initStateAB "Alice" "Bob" 1000000 1010000 rfl (by decide)

/-- C10: the chain-key encoding is not injective when names contain a hyphen:
the distinct ordered pairs ("A-B","C") and ("A","B-C") produce the same key
"A-B-C", so after a successful mention by "A" of "B-C" the count read for the
pair ("A-B","C") is already 1 (shared counter), and the fall-through reset for
speaker "A-B" — a name belonging to neither member of the pair ("A","B-C") —
deletes that pair's chain entry. -/
theorem c10_chain_key_collision :
    chainKey "A-B" "C" = chainKey "A" "B-C" ∧
      ("A-B", "C") ≠ (("A", "B-C") : String × String) ∧
      mapGetD (updateMentionChain initStateAB "A" "B-C" 1000).mentionChainCount
        (chainKey "A-B" "C") 0 = 1 ∧
      ("A-B" : String) ≠ "A" ∧ ("A-B" : String) ≠ "B-C" ∧
      mapGet
        (resetMentionChainsForSpeaker (updateMentionChain initStateAB "A" "B-C" 1000)
          "A-B").mentionChainCount (chainKey "A" "B-C") = none ∧
      mapGet
        (resetMentionChainsForSpeaker (updateMentionChain initStateAB "A" "B-C" 1000)
          "A-B").lastMentionTime (chainKey "A" "B-C") = none := by
  decide

/-! ### Spec-side mention resolution (for C8) -/

/-- Spec-side substring predicate: `sub` occurs contiguously inside `s`. -/
def SpecIncludes (s sub : String) : Prop :=
  ∃ pre post, s.data = pre ++ sub.data ++ post

theorem beginsWith_iff {α : Type} [BEq α] [LawfulBEq α] (l pat : List α) :
    beginsWith l pat = true ↔ ∃ r, l = pat ++ r := by
  induction pat generalizing l with
  | nil =>
    simp [beginsWith]
  | cons d ds ih =>
    cases l with
    | nil => simp [beginsWith]
    | cons c cs =>
      rw [show beginsWith (c :: cs) (d :: ds) = (c == d && beginsWith cs ds) from rfl]
      simp only [Bool.and_eq_true, beq_iff_eq, ih, List.cons_append]
      constructor
      · rintro ⟨h1, r, h2⟩
        exact ⟨r, by rw [h1, h2]⟩
      · rintro ⟨r, h⟩
        injection h with h1 h2
        exact ⟨h1, r, h2⟩

theorem includesAux_iff {α : Type} [BEq α] [LawfulBEq α] (sub l : List α) :
    includesAux sub l = true ↔ ∃ pre post, l = pre ++ sub ++ post := by
  induction l with
  | nil =>
    rw [show includesAux sub [] = sub.isEmpty from rfl]
    constructor
    · intro h
      exact ⟨[], [], by simp [List.isEmpty_iff.mp h]⟩
    · rintro ⟨pre, post, h⟩
      have h2 : pre ++ (sub ++ post) = [] := by simpa using h.symm
      rw [List.append_eq_nil] at h2
      have h3 := h2.2
      rw [List.append_eq_nil] at h3
      simp [List.isEmpty_iff, h3.1]
  | cons c rest ih =>
    rw [show includesAux sub (c :: rest) = (beginsWith (c :: rest) sub || includesAux sub rest)
      from rfl]
    simp only [Bool.or_eq_true, beginsWith_iff, ih]
    constructor
    · rintro (⟨r, h⟩ | ⟨pre, post, h⟩)
      · exact ⟨[], r, by simpa using h⟩
      · exact ⟨c :: pre, post, by simp [h]⟩
    · rintro ⟨pre, post, h⟩
      cases pre with
      | nil =>
        left
        exact ⟨post, by simpa using h⟩
      | cons p pre2 =>
        right
        rw [List.cons_append, List.cons_append] at h
        injection h with h1 h2
        exact ⟨pre2, post, h2⟩

theorem strIncludes_iff (s sub : String) :
    strIncludes s sub = true ↔ SpecIncludes s sub :=
  includesAux_iff sub.data s.data

instance (s sub : String) : Decidable (SpecIncludes s sub) :=
  decidable_of_iff (strIncludes s sub = true) (strIncludes_iff s sub)

/-- Spec-side match predicate, following the spec's words: case-insensitively,
the candidate equals the participant's display name, or the display name
contains the candidate as a substring, or the candidate contains the display
name as a substring. -/
def specMatches (p : Participant) (candidate : String) : Prop :=
  jsToLower candidate = jsToLower p.personality_name ∨
    SpecIncludes (jsToLower p.personality_name) (jsToLower candidate) ∨
    SpecIncludes (jsToLower candidate) (jsToLower p.personality_name)

instance (p : Participant) (candidate : String) : Decidable (specMatches p candidate) := by
  rw [specMatches]
  infer_instance

theorem strIncludes_eq_decide (s sub : String) :
    strIncludes s sub = decide (SpecIncludes s sub) := by
  by_cases h : SpecIncludes s sub
  · rw [(strIncludes_iff s sub).mpr h, decide_eq_true h]
  · rw [decide_eq_false h]
    cases hb : strIncludes s sub
    · rfl
    · exact absurd ((strIncludes_iff s sub).mp hb) h

theorem beq_eq_decide_prop {α : Type} [BEq α] [LawfulBEq α] [DecidableEq α] (a b : α) :
    (a == b) = decide (a = b) := by
  by_cases h : a = b
  · rw [h, decide_eq_true rfl, beq_self_eq_true]
  · rw [decide_eq_false h, beq_eq_false_iff_ne.mpr h]

theorem findParticipantByName_pred (ps : List Participant) (m : String) :
    findParticipantByName ps m = ps.find? (fun p => decide (specMatches p m)) := by
  unfold findParticipantByName
  apply congrArg (fun f => List.find? f ps)
  funext p
  show (jsToLower p.personality_name == jsToLower m
      || strIncludes (jsToLower p.personality_name) (jsToLower m)
      || strIncludes (jsToLower m) (jsToLower p.personality_name))
    = decide (specMatches p m)
  rw [beq_eq_decide_prop, strIncludes_eq_decide, strIncludes_eq_decide]
  by_cases h1 : jsToLower m = jsToLower p.personality_name <;>
    by_cases h2 : SpecIncludes (jsToLower p.personality_name) (jsToLower m) <;>
      by_cases h3 : SpecIncludes (jsToLower m) (jsToLower p.personality_name) <;>
        simp [specMatches, h1, h2, h3, eq_comm]

/-- C8: the mention resolver returns the first participant in registration
order (or none) satisfying the spec's three case-insensitive conditions —
candidate equals display name, display name contains candidate, or candidate
contains display name: a returned participant matches and is preceded only by
non-matching participants, and none is returned exactly when no participant
matches. -/
theorem c8_mention_resolver (ps : List Participant) (m : String) :
    (∀ p, findParticipantByName ps m = some p ↔
        specMatches p m ∧
          ∃ pre suff, ps = pre ++ p :: suff ∧ ∀ q ∈ pre, ¬ specMatches q m) ∧
      (findParticipantByName ps m = none ↔ ∀ q ∈ ps, ¬ specMatches q m) := by
  rw [findParticipantByName_pred]
  constructor
  · intro p
    rw [List.find?_eq_some]
    simp
  · rw [List.find?_eq_none]
    simp

/-! ### Noninterference of the diagnostic fields (for C9) -/

/-- Replace only the diagnostic fields `speakingOrder` and `currentIndex`;
two states are identical except for those fields exactly when one is
`withOrder` of the other. -/
def withOrder (s : FlowState) (so : List Participant) (ci : Nat) : FlowState :=
  { s with speakingOrder := so, currentIndex := ci }

theorem tryMentions_withOrder (so : List Participant) (ci : Nat) (sender : String) (now : Nat) :
    ∀ (ms : List String) (s : FlowState),
      tryMentions (withOrder s so ci) sender now ms =
        (tryMentions s sender now ms).map (fun pr => (pr.1, withOrder pr.2 so ci)) := by
  intro ms
  induction ms with
  | nil => intro s; rfl
  | cons m rest ih =>
    intro s
    simp only [tryMentions, show (withOrder s so ci).participants = s.participants from rfl,
      show ∀ a b t, shouldBreakMentionChain (withOrder s so ci) a b t =
        shouldBreakMentionChain s a b t from fun a b t => rfl]
    cases hf : findParticipantByName s.participants m with
    | none => exact ih s
    | some mp =>
      dsimp only
      by_cases hname : mp.personality_name ≠ sender
      · rw [if_pos hname, if_pos hname]
        by_cases hbr : shouldBreakMentionChain s sender mp.personality_name now = true
        · rw [if_pos hbr, if_pos hbr]
          exact ih s
        · rw [if_neg hbr, if_neg hbr]
          rfl
      · rw [if_neg hname, if_neg hname]
        exact ih s

/-- C9: the `speakingOrder` field (and its companion `currentIndex`) is never
consulted by the selection logic: for any two conversation states identical
except for those two fields, `getNextSpeaker` with the same `lastMessage`,
clock, and random draw returns the same participant and performs the same
state updates — the resulting states again differ only in those untouched
fields, which keep their input values. -/
theorem c9_speaking_order_unused (s : FlowState) (so : List Participant) (ci : Nat)
    (msg : Option Message) (now r : Nat) :
    (getNextSpeakerSt (withOrder s so ci) msg now r).1 = (getNextSpeakerSt s msg now r).1 ∧
      (getNextSpeakerSt (withOrder s so ci) msg now r).2 =
        withOrder (getNextSpeakerSt s msg now r).2 so ci ∧
      (getNextSpeakerSt (withOrder s so ci) msg now r).2.speakingOrder = so ∧
      (getNextSpeakerSt (withOrder s so ci) msg now r).2.currentIndex = ci := by
  have main : (getNextSpeakerSt (withOrder s so ci) msg now r).1 =
        (getNextSpeakerSt s msg now r).1 ∧
      (getNextSpeakerSt (withOrder s so ci) msg now r).2 =
        withOrder (getNextSpeakerSt s msg now r).2 so ci := by
    cases msg with
    | none =>
      simp only [getNextSpeakerSt,
        show selectRandomSpeaker (withOrder s so ci) r = selectRandomSpeaker s r from rfl]
      cases hsel : selectRandomSpeaker s r with
      | none => exact ⟨rfl, rfl⟩
      | some p => exact ⟨rfl, rfl⟩
    | some m =>
      by_cases hc : m.content ≠ "" ∧ m.sender_name ≠ ""
      · simp only [getNextSpeakerSt, if_pos hc,
          tryMentions_withOrder so ci m.sender_name now (extractMentions m.content) s]
        cases ht : tryMentions s m.sender_name now (extractMentions m.content) with
        | some pr => exact ⟨rfl, rfl⟩
        | none =>
          simp only [Option.map_none]
          simp only [show selectRandomSpeaker (withOrder s so ci) r =
            selectRandomSpeaker s r from rfl]
          cases hsel : selectRandomSpeaker s r with
          | none =>
            by_cases hs : m.sender_name ≠ ""
            · rw [if_pos hs, if_pos hs]
              exact ⟨rfl, rfl⟩
            · rw [if_neg hs, if_neg hs]
              exact ⟨rfl, rfl⟩
          | some p =>
            by_cases hs : m.sender_name ≠ ""
            · rw [if_pos hs, if_pos hs]
              exact ⟨rfl, rfl⟩
            · rw [if_neg hs, if_neg hs]
              exact ⟨rfl, rfl⟩
      · simp only [getNextSpeakerSt, if_neg hc,
          show selectRandomSpeaker (withOrder s so ci) r = selectRandomSpeaker s r from rfl]
        cases hsel : selectRandomSpeaker s r with
        | none =>
          by_cases hs : m.sender_name ≠ ""
          · rw [if_pos hs, if_pos hs]
            exact ⟨rfl, rfl⟩
          · rw [if_neg hs, if_neg hs]
            exact ⟨rfl, rfl⟩
        | some p =>
          by_cases hs : m.sender_name ≠ ""
          · rw [if_pos hs, if_pos hs]
            exact ⟨rfl, rfl⟩
          · rw [if_neg hs, if_neg hs]
            exact ⟨rfl, rfl⟩
  refine ⟨main.1, main.2, ?_, ?_⟩
  · rw [main.2]
    rfl
  · rw [main.2]
    rfl

/-! ### Lemmas about the speaker selector and bookkeeping -/

theorem pick_mem_of_some {α : Type} (l : List α) (r : Nat) (a : α)
    (h : pick l r = some a) : a ∈ l :=
  List.getElem?_mem h

theorem pick_some {α : Type} (l : List α) (r : Nat) (h : l ≠ []) :
    ∃ a, pick l r = some a := by
  have hlen : 0 < l.length := List.length_pos.mpr h
  have hidx : r % l.length < l.length := Nat.mod_lt _ hlen
  exact ⟨l[r % l.length], (List.getElem?_eq_some_getElem_iff l _ hidx).mpr trivial⟩

theorem select_core_mem (ps cand : List Participant) (r : Nat) (p : Participant)
    (hsub : ∀ q ∈ cand, q ∈ ps)
    (h : (if cand.length = 0 then pick ps r else pick cand r) = some p) : p ∈ ps := by
  by_cases hc : cand.length = 0
  · rw [if_pos hc] at h
    exact pick_mem_of_some _ _ _ h
  · rw [if_neg hc] at h
    exact hsub _ (pick_mem_of_some _ _ _ h)

theorem select_core_total (ps cand : List Participant) (r : Nat) (hps : ps ≠ []) :
    ∃ p, (if cand.length = 0 then pick ps r else pick cand r) = some p := by
  by_cases hc : cand.length = 0
  · rw [if_pos hc]
    exact pick_some _ _ hps
  · rw [if_neg hc]
    exact pick_some _ _ (fun hnil => hc (by rw [hnil]; rfl))

theorem select_core_mem_cand (ps cand : List Participant) (r : Nat) (p : Participant)
    (hc : cand.length ≠ 0)
    (h : (if cand.length = 0 then pick ps r else pick cand r) = some p) : p ∈ cand := by
  rw [if_neg hc] at h
  exact pick_mem_of_some _ _ _ h

theorem chooseCandidates_cases (pref avail : List Participant) :
    (if 0 < pref.length then pref else avail) = pref ∨
      (if 0 < pref.length then pref else avail) = avail := by
  by_cases hp : 0 < pref.length
  · exact Or.inl (if_pos hp)
  · exact Or.inr (if_neg hp)

theorem selectRandomSpeaker_mem_of_some (s : FlowState) (r : Nat) (p : Participant)
    (h : selectRandomSpeaker s r = some p) : p ∈ s.participants := by
  dsimp only [selectRandomSpeaker] at h
  split at h <;> split at h
  · exact pick_mem_of_some _ _ _ h
  · have hm := (List.mem_filter.mp (pick_mem_of_some _ _ _ h)).1
    split at hm
    · exact (List.mem_filter.mp hm).1
    · exact hm
  · exact pick_mem_of_some _ _ _ h
  · have hm := pick_mem_of_some _ _ _ h
    split at hm
    · exact (List.mem_filter.mp hm).1
    · exact hm

theorem selectRandomSpeaker_total (s : FlowState) (r : Nat) (h : s.participants ≠ []) :
    ∃ p, selectRandomSpeaker s r = some p := by
  dsimp only [selectRandomSpeaker]
  exact select_core_total s.participants _ r h

theorem selectRandomSpeaker_ne_last (s : FlowState) (r : Nat) (ls p : Participant)
    (hls : s.lastSpeaker = some ls) (hlen : 2 ≤ s.participants.length)
    (hnd : (s.participants.map (fun q => q.id)).Nodup)
    (hsel : selectRandomSpeaker s r = some p) : p.id ≠ ls.id := by
  dsimp only [selectRandomSpeaker] at hsel
  rw [hls] at hsel
  dsimp only at hsel
  have havail_ne : s.participants.filter (fun q => !(q.id == ls.id)) ≠ [] := by
    intro hnil
    have hall : ∀ q ∈ s.participants, q.id = ls.id := by
      intro q hq
      by_contra hne
      have hqa : q ∈ s.participants.filter (fun q => !(q.id == ls.id)) :=
        List.mem_filter.mpr ⟨hq, by simpa using hne⟩
      rw [hnil] at hqa
      exact List.not_mem_nil q hqa
    cases hps : s.participants with
    | nil =>
      rw [hps] at hlen
      simp at hlen
    | cons q1 rest =>
      cases hrest : rest with
      | nil =>
        rw [hps, hrest] at hlen
        simp at hlen
      | cons q2 rest2 =>
        have h1 : q1.id = ls.id := hall q1 (by rw [hps]; exact List.mem_cons_self _ _)
        have h2 : q2.id = ls.id := hall q2 (by
          rw [hps, hrest]
          exact List.mem_cons_of_mem _ (List.mem_cons_self _ _))
        rw [hps, hrest] at hnd
        simp only [List.map_cons, List.nodup_cons, List.mem_cons, List.mem_map] at hnd
        exact hnd.1 (Or.inl (h1.trans h2.symm))
  split at hsel <;> rename_i hinner <;> split at hsel <;> rename_i houter
  · exact absurd houter (by omega)
  · have hp_avail := (List.mem_filter.mp (pick_mem_of_some _ _ _ hsel)).1
    have := (List.mem_filter.mp hp_avail).2
    simpa using this
  · exact absurd (List.length_eq_zero.mp houter) havail_ne
  · have hp_avail := pick_mem_of_some _ _ _ hsel
    have := (List.mem_filter.mp hp_avail).2
    simpa using this

/-! ### Inversion lemmas for the mention path and bookkeeping -/

theorem tryMentions_inv (sender : String) (now : Nat) :
    ∀ (ms : List String) (s : FlowState) (p : Participant) (s1 : FlowState),
      tryMentions s sender now ms = some (p, s1) →
      p ∈ s.participants ∧ p.personality_name ≠ sender ∧
        s1.participants = s.participants ∧ s1.consecutiveTurns = s.consecutiveTurns ∧
        s1.lastSpeaker = s.lastSpeaker := by
  intro ms
  induction ms with
  | nil => intro s p s1 h; exact absurd h (by simp [tryMentions])
  | cons m rest ih =>
    intro s p s1 h
    rw [tryMentions] at h
    cases hf : findParticipantByName s.participants m with
    | none =>
      rw [hf] at h
      exact ih s p s1 h
    | some mp =>
      rw [hf] at h
      dsimp only at h
      by_cases hname : mp.personality_name ≠ sender
      · rw [if_pos hname] at h
        by_cases hbr : shouldBreakMentionChain s sender mp.personality_name now = true
        · rw [if_pos hbr] at h
          exact ih s p s1 h
        · rw [if_neg hbr] at h
          have hinj := Option.some.inj h
          have hp : mp = p := congrArg Prod.fst hinj
          have hs : s1 = _ := (congrArg Prod.snd hinj).symm
          subst hp
          refine ⟨List.mem_of_find?_eq_some hf, hname, ?_, ?_, ?_⟩ <;> rw [hs] <;> rfl
      · rw [if_neg hname] at h
        exact ih s p s1 h

theorem bookkeeping_self (s : FlowState) (next : Participant) :
    mapGetD (updateSpeakerBookkeeping s next).consecutiveTurns next.id 0 =
      mapGetD s.consecutiveTurns next.id 0 + 1 := by
  dsimp only [updateSpeakerBookkeeping]
  have hfold : ∀ (ps : List Participant) (m : List (Nat × Nat)),
      mapGet (ps.foldl (fun m p => if p.id ≠ next.id then mapSet m p.id 0 else m) m) next.id =
        mapGet m next.id := by
    intro ps
    induction ps with
    | nil => intro m; rfl
    | cons q rest ihq =>
      intro m
      rw [List.foldl_cons]
      by_cases hq : q.id ≠ next.id
      · rw [if_pos hq, ihq, mapGet_set_ne _ _ _ _ (Ne.symm hq)]
      · rw [if_neg hq, ihq]
  rw [mapGetD, hfold, mapGet_set_self]
  rfl

theorem bookkeeping_other (s : FlowState) (next q : Participant)
    (hq : q ∈ s.participants) (hne : q.id ≠ next.id) :
    mapGet (updateSpeakerBookkeeping s next).consecutiveTurns q.id = some 0 := by
  dsimp only [updateSpeakerBookkeeping]
  have hfold_keep : ∀ (ps : List Participant) (m : List (Nat × Nat)),
      (∀ x ∈ ps, x.id ≠ q.id) →
      mapGet (ps.foldl (fun m p => if p.id ≠ next.id then mapSet m p.id 0 else m) m) q.id =
        mapGet m q.id := by
    intro ps
    induction ps with
    | nil => intro m _; rfl
    | cons x rest ihx =>
      intro m hall
      rw [List.foldl_cons]
      by_cases hx : x.id ≠ next.id
      · rw [if_pos hx, ihx _ (fun y hy => hall y (List.mem_cons_of_mem _ hy)),
          mapGet_set_ne _ _ _ _ (Ne.symm (hall x (List.mem_cons_self _ _)))]
      · rw [if_neg hx, ihx _ (fun y hy => hall y (List.mem_cons_of_mem _ hy))]
  have hfold : ∀ (ps : List Participant) (m : List (Nat × Nat)),
      (∃ x ∈ ps, x.id = q.id) →
      mapGet (ps.foldl (fun m p => if p.id ≠ next.id then mapSet m p.id 0 else m) m) q.id =
        some 0 := by
    intro ps
    induction ps with
    | nil => intro m hex; exact absurd hex (by simp)
    | cons x rest ihx =>
      intro m hex
      rw [List.foldl_cons]
      by_cases hxq : x.id = q.id
      · have hxnext : x.id ≠ next.id := by rw [hxq]; exact hne
        rw [if_pos hxnext]
        by_cases hrest : ∃ y ∈ rest, y.id = q.id
        · exact ihx _ hrest
        · have hallne : ∀ y ∈ rest, y.id ≠ q.id := by
            intro y hy
            exact fun hc => hrest ⟨y, hy, hc⟩
          rw [hfold_keep rest _ hallne, hxq, mapGet_set_self]
      · have hrest : ∃ y ∈ rest, y.id = q.id := by
          rcases hex with ⟨y, hy, hyq⟩
          rcases List.mem_cons.mp hy with rfl | hy2
          · exact absurd hyq hxq
          · exact ⟨y, hy2, hyq⟩
        by_cases hx : x.id ≠ next.id
        · rw [if_pos hx]
          exact ihx _ hrest
        · rw [if_neg hx]
          exact ihx _ hrest
  exact hfold s.participants _ ⟨q, hq, rfl⟩

theorem resetFields (s : FlowState) (n : String) :
    (resetMentionChainsForSpeaker s n).participants = s.participants ∧
      (resetMentionChainsForSpeaker s n).consecutiveTurns = s.consecutiveTurns ∧
      (resetMentionChainsForSpeaker s n).lastSpeaker = s.lastSpeaker :=
  ⟨rfl, rfl, rfl⟩

theorem getNextSpeakerSt_inv (s : FlowState) (msg : Option Message) (now r : Nat)
    (p : Participant) (h : (getNextSpeakerSt s msg now r).1 = some p) :
    ∃ s1, (getNextSpeakerSt s msg now r).2 = updateSpeakerBookkeeping s1 p ∧
      s1.participants = s.participants ∧ s1.consecutiveTurns = s.consecutiveTurns ∧
      s1.lastSpeaker = s.lastSpeaker ∧
      p ∈ s.participants ∧
      ((∃ m, msg = some m ∧ p.personality_name ≠ m.sender_name) ∨
        selectRandomSpeaker s r = some p) := by
  cases msg with
  | none =>
    dsimp only [getNextSpeakerSt] at h ⊢
    cases hsel : selectRandomSpeaker s r with
    | none =>
      rw [hsel] at h
      exact absurd h (by simp)
    | some q =>
      rw [hsel] at h
      dsimp only at h ⊢
      have hqp : q = p := Option.some.inj h
      subst hqp
      exact ⟨s, rfl, rfl, rfl, rfl, selectRandomSpeaker_mem_of_some s r q hsel, Or.inr rfl⟩
  | some m =>
    by_cases hc : m.content ≠ "" ∧ m.sender_name ≠ ""
    · dsimp only [getNextSpeakerSt] at h ⊢
      rw [if_pos hc] at h ⊢
      cases ht : tryMentions s m.sender_name now (extractMentions m.content) with
      | some pr =>
        rw [ht] at h
        dsimp only at h ⊢
        have hqp : pr.1 = p := Option.some.inj h
        obtain ⟨hmem, hname, hparts, hcons, hlast⟩ :=
          tryMentions_inv m.sender_name now (extractMentions m.content) s pr.1 pr.2
            (by rw [ht])
        subst hqp
        exact ⟨pr.2, rfl, hparts, hcons, hlast, hmem, Or.inl ⟨m, rfl, hname⟩⟩
      | none =>
        rw [ht] at h
        dsimp only at h ⊢
        cases hsel : selectRandomSpeaker s r with
        | none =>
          rw [hsel] at h
          exact absurd h (by simp)
        | some q =>
          rw [hsel] at h
          dsimp only at h ⊢
          have hqp : q = p := Option.some.inj h
          subst hqp
          refine ⟨(if m.sender_name ≠ "" then resetMentionChainsForSpeaker s m.sender_name
            else s), rfl, ?_, ?_, ?_,
            selectRandomSpeaker_mem_of_some s r q hsel, Or.inr rfl⟩ <;>
            split <;> rfl
    · dsimp only [getNextSpeakerSt] at h ⊢
      rw [if_neg hc] at h ⊢
      cases hsel : selectRandomSpeaker s r with
      | none =>
        rw [hsel] at h
        exact absurd h (by simp)
      | some q =>
        rw [hsel] at h
        dsimp only at h ⊢
        have hqp : q = p := Option.some.inj h
        subst hqp
        refine ⟨(if m.sender_name ≠ "" then resetMentionChainsForSpeaker s m.sender_name
          else s), rfl, ?_, ?_, ?_,
          selectRandomSpeaker_mem_of_some s r q hsel, Or.inr rfl⟩ <;>
          split <;> rfl

theorem selectRandomSpeaker_none (s : FlowState) (r : Nat)
    (h : selectRandomSpeaker s r = none) : s.participants = [] := by
  by_contra hne
  obtain ⟨p, hp⟩ := selectRandomSpeaker_total s r hne
  rw [h] at hp
  exact absurd hp (by simp)

theorem getNextSpeakerSt_none (s : FlowState) (msg : Option Message) (now r : Nat)
    (h : (getNextSpeakerSt s msg now r).1 = none) : s.participants = [] := by
  cases msg with
  | none =>
    dsimp only [getNextSpeakerSt] at h
    cases hsel : selectRandomSpeaker s r with
    | none => exact selectRandomSpeaker_none s r hsel
    | some q =>
      rw [hsel] at h
      exact absurd h (by simp)
  | some m =>
    by_cases hc : m.content ≠ "" ∧ m.sender_name ≠ ""
    · dsimp only [getNextSpeakerSt] at h
      rw [if_pos hc] at h
      cases ht : tryMentions s m.sender_name now (extractMentions m.content) with
      | some pr =>
        rw [ht] at h
        exact absurd h (by simp)
      | none =>
        rw [ht] at h
        dsimp only at h
        cases hsel : selectRandomSpeaker s r with
        | none => exact selectRandomSpeaker_none s r hsel
        | some q =>
          rw [hsel] at h
          exact absurd h (by simp)
    · dsimp only [getNextSpeakerSt] at h
      rw [if_neg hc] at h
      cases hsel : selectRandomSpeaker s r with
      | none => exact selectRandomSpeaker_none s r hsel
      | some q =>
        rw [hsel] at h
        exact absurd h (by simp)

theorem getNextSpeakerSt_total (s : FlowState) (msg : Option Message) (now r : Nat)
    (h : s.participants ≠ []) :
    ∃ p, (getNextSpeakerSt s msg now r).1 = some p ∧ p ∈ s.participants := by
  cases hres : (getNextSpeakerSt s msg now r).1 with
  | some p =>
    obtain ⟨_, _, _, _, _, hmem, _⟩ := getNextSpeakerSt_inv s msg now r p hres
    exact ⟨p, rfl, hmem⟩
  | none => exact absurd (getNextSpeakerSt_none s msg now r hres) h

theorem mapGet_cleanup_self (states : List (String × FlowState)) (cid : String) :
    mapGet (cleanupConversation states cid) cid = none := by
  induction states with
  | nil => rfl
  | cons e rest ih =>
    dsimp only [cleanupConversation] at ih ⊢
    rw [List.filter_cons]
    by_cases he : e.1 = cid
    · rw [if_neg (by simp [he])]
      exact ih
    · rw [if_pos (by simp [he])]
      have hb : (e.1 == cid) = false := beq_eq_false_iff_ne.mpr he
      simp only [mapGet, hb]
      rw [if_neg Bool.false_ne_true]
      exact ih

/-- C3 counterexample: in a freshly initialized two-participant conversation
where Bob was just selected (so `lastSpeaker = Bob`), a message sent by Alice
that mentions @Bob makes `getNextSpeaker` return Bob — the participant
currently recorded as `lastSpeaker` — via the mention path, refuting the
claim that a repeat is impossible for N ≥ 2 for every `lastMessage`. -/
theorem c3_counterexample :
    2 ≤ (getNextSpeakerSt initStateAB none 50000 1).2.participants.length ∧
      (getNextSpeakerSt initStateAB none 50000 1).2.lastSpeaker = some bobP ∧
      (getNextSpeakerSt (getNextSpeakerSt initStateAB none 50000 1).2
        (some ⟨"thoughts @Bob?", "Alice"⟩) 100000 0).1 = some bobP := by
  decide

/-- C3 amended: for N ≥ 2 participants with distinct ids, `getNextSpeaker`
never returns the recorded `lastSpeaker` PROVIDED the triggering message (when
present) was sent by that last speaker — the normal operating mode, where the
self-mention guard blocks mention-driven repeats and the random path excludes
the last speaker.  (When the message's sender is a different participant, the
mention path can return the last speaker, as the counterexample shows.) -/
theorem c3_no_repeat_amended (s : FlowState) (ls : Participant) (msg : Option Message)
    (now r : Nat) (p : Participant)
    (hls : s.lastSpeaker = some ls) (hlen : 2 ≤ s.participants.length)
    (hnd : (s.participants.map (fun q => q.id)).Nodup)
    (hmsg : msg = none ∨ ∃ m, msg = some m ∧ m.sender_name = ls.personality_name)
    (hres : (getNextSpeakerSt s msg now r).1 = some p) :
    p ≠ ls := by
  obtain ⟨s1, _, _, _, _, hmem, hpath⟩ := getNextSpeakerSt_inv s msg now r p hres
  rcases hpath with ⟨m, hm, hname⟩ | hsel
  · rcases hmsg with hnone | ⟨m2, hm2, hsender⟩
    · rw [hnone] at hm
      exact absurd hm (by simp)
    · rw [hm2] at hm
      have hmm : m2 = m := Option.some.inj hm
      subst hmm
      intro hpl
      rw [hpl] at hname
      exact hname hsender.symm
  · intro hpl
    have hne := selectRandomSpeaker_ne_last s r ls p hls hlen hnd hsel
    rw [hpl] at hne
    exact hne rfl

/-- C3 amended witness: after Bob is selected, Bob's own mention-free message
leads to Alice being chosen — not Bob — as the amended claim requires. -/
theorem c3_no_repeat_amended_witness : aliceP ≠ bobP :=
  c3_no_repeat_amended (getNextSpeakerSt initStateAB none 50000 1).2 bobP
    (some ⟨"moving on", "Bob"⟩) 100000 0 aliceP
    (by decide) (by decide) (by decide)
    (Or.inr ⟨⟨"moving on", "Bob"⟩, rfl, by decide⟩) (by decide)

/-- C4: after every `getNextSpeaker` call that returns a speaker, the chosen
participant's `consecutiveTurnCounts` entry is at least 1 and every other
participant's entry is 0 (so at most one participant has a non-zero entry, and
it is the just-chosen one); and a freshly initialized conversation has an
empty `consecutiveTurnCounts` map. -/
theorem c4_single_speaker :
    (∀ (states : List (String × FlowState)) (cid : String) (ps : List Participant)
        (rand : Nat → Nat),
      (initializeConversation states cid ps rand).1.consecutiveTurns = []) ∧
    ∀ (s : FlowState) (msg : Option Message) (now r : Nat) (p : Participant),
      (getNextSpeakerSt s msg now r).1 = some p →
      p ∈ s.participants ∧
        1 ≤ mapGetD (getNextSpeakerSt s msg now r).2.consecutiveTurns p.id 0 ∧
        ∀ q ∈ s.participants, q.id ≠ p.id →
          mapGetD (getNextSpeakerSt s msg now r).2.consecutiveTurns q.id 0 = 0 := by
  constructor
  · intro states cid ps rand
    rfl
  · intro s msg now r p h
    obtain ⟨s1, h2, hparts, _, _, hmem, _⟩ := getNextSpeakerSt_inv s msg now r p h
    refine ⟨hmem, ?_, ?_⟩
    · rw [h2, bookkeeping_self]
      omega
    · intro q hq hne
      rw [h2, mapGetD, bookkeeping_other s1 p q (by rw [hparts]; exact hq) hne]
      rfl

/-- C4 witness: the invariant applied to the first selection in a fresh
two-participant conversation, which picks Alice. -/
theorem c4_single_speaker_witness :
    aliceP ∈ initStateAB.participants ∧
      1 ≤ mapGetD (getNextSpeakerSt initStateAB none 1000 0).2.consecutiveTurns aliceP.id 0 ∧
      ∀ q ∈ initStateAB.participants, q.id ≠ aliceP.id →
        mapGetD (getNextSpeakerSt initStateAB none 1000 0).2.consecutiveTurns q.id 0 = 0 :=
  c4_single_speaker.2 initStateAB none 1000 0 aliceP (by decide)

/-- C5: `getNextSpeaker` returns the "no state" signal (`none`) when the
conversation id has no stored state — never initialized or cleaned up — and
for every initialized conversation with a non-empty participant list it
returns a member of that list, for every `lastMessage` argument. -/
theorem c5_no_state_or_member (states : List (String × FlowState)) (cid : String)
    (msg : Option Message) (now r : Nat) :
    (mapGet states cid = none → (getNextSpeaker states cid msg now r).1 = none) ∧
      (∀ s, mapGet states cid = some s → s.participants ≠ [] →
        ∃ p, (getNextSpeaker states cid msg now r).1 = some p ∧ p ∈ s.participants) ∧
      (getNextSpeaker (cleanupConversation states cid) cid msg now r).1 = none := by
  refine ⟨?_, ?_, ?_⟩
  · intro hnone
    dsimp only [getNextSpeaker]
    rw [hnone]
  · intro s hs hne
    dsimp only [getNextSpeaker]
    rw [hs]
    exact getNextSpeakerSt_total s msg now r hne
  · dsimp only [getNextSpeaker]
    rw [mapGet_cleanup_self]

/-- C5 witness: a fresh store holding one initialized conversation — lookup of
an unknown id yields the no-state signal, and the stored two-participant
conversation always yields a member. -/
theorem c5_no_state_or_member_witness :
    (getNextSpeaker (initializeConversation [] "conv" abParticipants (fun _ => 0)).2
        "other" none 1000 0).1 = none ∧
      ∃ p, (getNextSpeaker (initializeConversation [] "conv" abParticipants (fun _ => 0)).2
          "conv" none 1000 0).1 = some p ∧ p ∈ initStateAB.participants :=
  ⟨(c5_no_state_or_member (initializeConversation [] "conv" abParticipants (fun _ => 0)).2
      "other" none 1000 0).1 (by decide),
    (c5_no_state_or_member (initializeConversation [] "conv" abParticipants (fun _ => 0)).2
      "conv" none 1000 0).2.1 initStateAB (by decide) (by decide)⟩

/-! ### Key-set alignment of the two chain maps (for C7) -/

/-- The two chain maps have the same key set. -/
def chainKeysAligned (s : FlowState) : Prop :=
  ∀ k, (mapGet s.mentionChainCount k).isSome ↔ (mapGet s.lastMentionTime k).isSome

theorem umc_aligned (s : FlowState) (a b : String) (t : Nat)
    (h : chainKeysAligned s) : chainKeysAligned (updateMentionChain s a b t) := by
  intro k
  dsimp only [updateMentionChain]
  set ex := ((mapSet s.lastMentionTime (chainKey a b) t).filter
    (fun e => decide ((e.2 : Int) < (t : Int) - 300000))).map (fun e => e.1) with hex
  cases hc : ex.contains k with
  | true =>
    rw [mapGet_filter_notContains_hit _ _ _ hc, mapGet_filter_notContains_hit _ _ _ hc]
  | false =>
    rw [mapGet_filter_notContains_miss _ _ _ hc, mapGet_filter_notContains_miss _ _ _ hc]
    by_cases hk : k = chainKey a b
    · rw [hk, mapGet_set_self, mapGet_set_self]
      simp
    · rw [mapGet_set_ne _ _ _ _ hk, mapGet_set_ne _ _ _ _ hk]
      exact h k

theorem reset_aligned (s : FlowState) (n : String)
    (h : chainKeysAligned s) : chainKeysAligned (resetMentionChainsForSpeaker s n) := by
  intro k
  dsimp only [resetMentionChainsForSpeaker]
  set ex := (s.mentionChainCount.filter (fun e =>
    strStartsWith e.1 (n ++ "-") || strEndsWith e.1 ("-" ++ n))).map (fun e => e.1) with hex
  cases hc : ex.contains k with
  | true =>
    rw [mapGet_filter_notContains_hit _ _ _ hc, mapGet_filter_notContains_hit _ _ _ hc]
  | false =>
    rw [mapGet_filter_notContains_miss _ _ _ hc, mapGet_filter_notContains_miss _ _ _ hc]
    exact h k

theorem tryMentions_aligned (sender : String) (now : Nat) :
    ∀ (ms : List String) (s : FlowState) (p : Participant) (s1 : FlowState),
      chainKeysAligned s → tryMentions s sender now ms = some (p, s1) →
      chainKeysAligned s1 := by
  intro ms
  induction ms with
  | nil => intro s p s1 _ h; exact absurd h (by simp [tryMentions])
  | cons m rest ih =>
    intro s p s1 ha h
    rw [tryMentions] at h
    cases hf : findParticipantByName s.participants m with
    | none =>
      rw [hf] at h
      exact ih s p s1 ha h
    | some mp =>
      rw [hf] at h
      dsimp only at h
      by_cases hname : mp.personality_name ≠ sender
      · rw [if_pos hname] at h
        by_cases hbr : shouldBreakMentionChain s sender mp.personality_name now = true
        · rw [if_pos hbr] at h
          exact ih s p s1 ha h
        · rw [if_neg hbr] at h
          have hs : s1 = _ := (congrArg Prod.snd (Option.some.inj h)).symm
          rw [hs]
          exact umc_aligned s sender mp.personality_name now ha
      · rw [if_neg hname] at h
        exact ih s p s1 ha h

theorem getNextSpeakerSt_aligned (s : FlowState) (msg : Option Message) (now r : Nat)
    (h : chainKeysAligned s) : chainKeysAligned (getNextSpeakerSt s msg now r).2 := by
  cases msg with
  | none =>
    dsimp only [getNextSpeakerSt]
    cases hsel : selectRandomSpeaker s r with
    | none => exact h
    | some q => exact h
  | some m =>
    by_cases hc : m.content ≠ "" ∧ m.sender_name ≠ ""
    · dsimp only [getNextSpeakerSt]
      rw [if_pos hc]
      cases ht : tryMentions s m.sender_name now (extractMentions m.content) with
      | some pr =>
        exact tryMentions_aligned m.sender_name now (extractMentions m.content) s pr.1 pr.2 h
          (by rw [ht])
      | none =>
        dsimp only
        cases hsel : selectRandomSpeaker s r with
        | none =>
          by_cases hs : m.sender_name ≠ ""
          · rw [if_pos hs]
            exact reset_aligned s m.sender_name h
          · rw [if_neg hs]
            exact h
        | some q =>
          by_cases hs : m.sender_name ≠ ""
          · rw [if_pos hs]
            exact reset_aligned s m.sender_name h
          · rw [if_neg hs]
            exact h
    · dsimp only [getNextSpeakerSt]
      rw [if_neg hc]
      cases hsel : selectRandomSpeaker s r with
      | none =>
        by_cases hs : m.sender_name ≠ ""
        · rw [if_pos hs]
          exact reset_aligned s m.sender_name h
        · rw [if_neg hs]
          exact h
      | some q =>
        by_cases hs : m.sender_name ≠ ""
        · rw [if_pos hs]
          exact reset_aligned s m.sender_name h
        · rw [if_neg hs]
          exact h

/-- C7: the key set of `mentionChainCounts` always equals the key set of
`lastMentionTimestamps`: a fresh conversation starts with both empty, and
every controller operation — the chain update with its expiry sweep, the
fall-through reset, and a full `getNextSpeaker` call — preserves the
alignment, adding to and deleting from both maps together. -/
theorem c7_chain_maps_aligned :
    (∀ (states : List (String × FlowState)) (cid : String) (ps : List Participant)
        (rand : Nat → Nat),
      chainKeysAligned (initializeConversation states cid ps rand).1) ∧
      (∀ s a b t, chainKeysAligned s → chainKeysAligned (updateMentionChain s a b t)) ∧
      (∀ s n, chainKeysAligned s → chainKeysAligned (resetMentionChainsForSpeaker s n)) ∧
      (∀ s msg now r, chainKeysAligned s →
        chainKeysAligned (getNextSpeakerSt s msg now r).2) :=
  ⟨fun _ _ _ _ _ => Iff.rfl, umc_aligned, reset_aligned, getNextSpeakerSt_aligned⟩

/-- C7 witness: alignment after a concrete chain update, a reset, and a full
`getNextSpeaker` call on the fresh two-participant conversation. -/
theorem c7_chain_maps_aligned_witness :
    chainKeysAligned (updateMentionChain initStateAB "Alice" "Bob" 1000) ∧
      chainKeysAligned (resetMentionChainsForSpeaker initStateAB "Bob") ∧
      chainKeysAligned
        (getNextSpeakerSt initStateAB (some ⟨"hi @Bob", "Alice"⟩) 50000 0).2 :=
  ⟨c7_chain_maps_aligned.2.1 initStateAB "Alice" "Bob" 1000 (fun _ => Iff.rfl),
    c7_chain_maps_aligned.2.2.1 initStateAB "Bob" (fun _ => Iff.rfl),
    c7_chain_maps_aligned.2.2.2 initStateAB (some ⟨"hi @Bob", "Alice"⟩) 50000 0
      (fun _ => Iff.rfl)⟩
